import Mathlib

/-!
Verification of the `DataHandler` core (encode/decode pipeline and the
`allowed_changes` validation) of the `detect` repository, as a shallow
embedding in Lean.  Matrices are lists of rows of rationals; fallible
numpy/pandas operations return `Option`, and `allowed_changes` (which can
raise `ValueError`/`IndexError`) returns `Except String Bool`.
-/

/-- The kind of a feature.  Modelled from the spec: the features module
(`Binary`, `Categorical`, `Contiguous`) is not part of the given sources;
the spec describes Feature as a polymorphic unit over the variants
Binary / Categorical / Contiguous. -/
inductive FeatureKind where
  | binary
  | categorical
  | contiguous
deriving DecidableEq

/-- Modelled from the spec: the per-feature contract of the (absent)
features module.  `fid` models Python object identity, used by
`list.index` lookups on the feature list.  Python's polymorphic
`Feature.encode` is split by argument shape into `encode` (a column of
values) and `encodeOne` (a single raw value, as used by
`allowed_changes` with `normalize=False, one_hot=False`).  `decode` takes
the matrix slice, the `denormalize` flag and the `as_dataframe` flag and
returns the reconstructed column; `encoding_width` is the structural
width; `allowed_change` enforces immutability/monotonicity;
`greater_than` returns the set of encoded category values greater than
the given one. -/
structure Feature where
  fid : Nat
  name : String
  kind : FeatureKind
  encode : List Rat → Bool → Bool → Option (List Rat)
  encodeOne : Rat → Rat
  decode : List (List Rat) → Bool → Bool → Option (List Rat)
  encoding_width : Bool → Nat
  allowed_change : Rat → Rat → Bool
  greater_than : Rat → List Rat

/-- The `DataHandler` configuration: the ordered input features, the
optional target feature, the causal-implication pairs and the ordering
pairs (from `DataHandler.__init__`). -/
structure DataHandler where
  features : List Feature
  target : Option Feature
  causal_inc : List (Feature × Feature)
  greater_than : List (Feature × Feature)

/-- A matrix as a list of rows. -/
abbrev Matx := List (List Rat)

/-- Python `features.index(f)`: position of a feature in a list, by identity
(`fid`); `none` models the `ValueError` raised when absent. -/
def featIndex? (fs : List Feature) (f : Feature) : Option Nat :=
  fs.findIdx? (fun g => g.fid == f.fid)

/-- Turn an optional value into an `Except`, with the raised message. -/
def liftOpt (o : Option α) (msg : String) : Except String α :=
  match o with
  | some a => .ok a
  | none => .error msg

/-- The per-feature stage of `allowed_changes`: Python's
`zip(self.features, pre_vals, post_vals)` truncates to the shortest of
the three sequences, and the loop returns `False` on the first feature
whose `allowed_change` rejects. -/
def featOk (fs : List Feature) (pre post : List Rat) : Bool :=
  (fs.zip (pre.zip post)).all (fun t => t.1.allowed_change t.2.1 t.2.2)

/-- One causal-implication pair of `allowed_changes`: look up the cause's
index, raw-encode its before/after values, decide whether the cause
"increased" (membership in `greater_than` for a Categorical cause, strict
numeric increase for a Contiguous cause, `ValueError` otherwise); when it
did, the effect must have increased under the same type-dependent rule.
Returns `ok false` when the pair rejects the transition. -/
def causalStep (fs : List Feature) (pre post : List Rat) (cause effect : Feature) :
    Except String Bool := do
  let cause_i ← liftOpt (featIndex? fs cause) "is not in list"
  let pc ← liftOpt (pre.get? cause_i) "list index out of range"
  let qc ← liftOpt (post.get? cause_i) "list index out of range"
  let pre_cause := cause.encodeOne pc
  let pos_cause := cause.encodeOne qc
  let applied ← match cause.kind with
    | .categorical => pure (decide (pos_cause ∈ cause.greater_than pre_cause))
    | .contiguous => pure (decide (pos_cause > pre_cause))
    | .binary => Except.error "invalid feature type"
  if applied then do
    let effect_i ← liftOpt (featIndex? fs effect) "is not in list"
    let pe ← liftOpt (pre.get? effect_i) "list index out of range"
    let qe ← liftOpt (post.get? effect_i) "list index out of range"
    let pre_effect := effect.encodeOne pe
    let pos_effect := effect.encodeOne qe
    match effect.kind with
    | .categorical => pure (decide (pos_effect ∈ effect.greater_than pre_effect))
    | .contiguous => pure (decide (¬ pos_effect ≤ pre_effect))
    | .binary => Except.error "invalid feature type"
  else
    pure true

/-- The causal-implication loop of `allowed_changes`: the first rejecting
pair returns `False`, errors propagate. -/
def causalLoop (fs : List Feature) (pre post : List Rat) :
    List (Feature × Feature) → Except String Bool
  | [] => .ok true
  | (c, e) :: rest => do
    let b ← causalStep fs pre post c e
    if b then causalLoop fs pre post rest else pure false

/-- One ordering pair of `allowed_changes`: compare the raw after-values
at the two features' positions (`post_vals[index(smaller)] >
post_vals[index(greater)]`).  Returns `ok true` when the pair is
violated. -/
def orderStep (fs : List Feature) (post : List Rat) (greater smaller : Feature) :
    Except String Bool := do
  let si ← liftOpt (featIndex? fs smaller) "is not in list"
  let ps ← liftOpt (post.get? si) "list index out of range"
  let gi ← liftOpt (featIndex? fs greater) "is not in list"
  let pg ← liftOpt (post.get? gi) "list index out of range"
  pure (decide (ps > pg))

/-- The ordering loop of `allowed_changes`: the first violated pair
returns `False`, errors propagate. -/
def orderLoop (fs : List Feature) (post : List Rat) :
    List (Feature × Feature) → Except String Bool
  | [] => .ok true
  | (g, s) :: rest => do
    let v ← orderStep fs post g s
    if v then pure false else orderLoop fs post rest

/-- The method `DataHandler.allowed_changes(pre_vals, post_vals)`: the per-feature
stage, then the causal-implication pairs, then the ordering pairs; the
first rejection returns `False` and skips the remaining stages. -/
def DataHandler.allowed_changes (H : DataHandler) (pre post : List Rat) :
    Except String Bool :=
  if featOk H.features pre post then do
    let b ← causalLoop H.features pre post H.causal_inc
    if b then orderLoop H.features post H.greater_than else pure false
  else
    .ok false

/-- Indexing `X[:, i]` on a rectangular array: the `i`-th entry of every row, or
`none` (IndexError) when `i` is out of column range. -/
def colOf? (X : Matx) (i : Nat) : Option (List Rat) :=
  if X.all (fun r => i < r.length) then some (X.map (fun r => r.getD i 0)) else none

/-- numpy `reshape(r, -1)` on a flat array: fails when `r = 0` or when
`r` does not divide the size (numpy refuses to infer `-1` in both
cases); otherwise splits into `r` rows of `size / r` entries. -/
def reshapeRows (r : Nat) (l : List Rat) : Option Matx :=
  if r = 0 then none
  else if r ∣ l.length then
    some ((List.range r).map (fun i => (l.drop (i * (l.length / r))).take (l.length / r)))
  else none

/-- numpy `concatenate(_, axis=1)` of blocks that all have `r` rows:
row-wise append. -/
def rowConcat (r : Nat) (bs : List Matx) : Matx :=
  bs.foldr (fun B acc => List.zipWith (fun a b => a ++ b) B acc) (List.replicate r [])

/-- The per-feature loop of `DataHandler.encode`: for the feature at
column `i`, extract the column, call the feature's `encode`, and reshape
to `(r, -1)`; collect the blocks in feature order. -/
def encBlocks (r : Nat) (X : Matx) (normalize one_hot : Bool) :
    Nat → List Feature → Option (List Matx)
  | _, [] => some []
  | i, f :: fs => do
    let c ← colOf? X i
    let e ← f.encode c normalize one_hot
    let B ← reshapeRows r e
    let rest ← encBlocks r X normalize one_hot (i + 1) fs
    pure (B :: rest)

/-- The method `DataHandler.encode` on a 2-D matrix: encode every feature's column,
then `np.concatenate(enc, axis=1)` (which fails on an empty list of
blocks, i.e. when there are no features). -/
def DataHandler.encodeMat (H : DataHandler) (X : Matx) (normalize one_hot : Bool) :
    Option Matx := do
  let bs ← encBlocks X.length X normalize one_hot 0 H.features
  if bs.isEmpty then none else pure (rowConcat X.length bs)

/-- The argument of `DataHandler.encode`: either a single 1-D row or a
2-D matrix. -/
inductive DataLike where
  | row (x : List Rat)
  | mat (X : Matx)

/-- The result of `DataHandler.encode`: a single row for 1-D input, a
matrix for 2-D input. -/
inductive EncResult where
  | row (x : List Rat)
  | mat (X : Matx)
deriving DecidableEq

/-- The method `DataHandler.encode`: a 1-D input is promoted to a one-row matrix,
encoded, and the first row of the result is returned; 2-D input is
encoded directly. -/
def DataHandler.encode (H : DataHandler) (X : DataLike) (normalize one_hot : Bool) :
    Option EncResult :=
  match X with
  | .row x => do
    let M ← H.encodeMat [x] normalize one_hot
    let r ← M.head?
    pure (.row r)
  | .mat M => (H.encodeMat M normalize one_hot).map .mat

/-- The result of `DataHandler.decode`: a labeled table (DataFrame of
named columns) or a plain array (with its column count, so that the
shape of a zero-row array is represented). -/
inductive DecResult where
  | df (cols : List (String × List Rat))
  | arr (ncols : Nat) (rows : Matx)
deriving DecidableEq

/-- numpy `[x.reshape(rows, -1) for x in dec]`: reshape every decoded
per-feature result to `rows` rows, failing like `reshape`. -/
def reshapeAll (r : Nat) : List (List Rat) → Option (List Matx)
  | [] => some []
  | c :: cs => do
    let B ← reshapeRows r c
    let rest ← reshapeAll r cs
    pure (B :: rest)

/-- Slicing `X[:, c : c + w]`: numpy column slicing (out-of-range slices clamp
silently). -/
def sliceCols (X : Matx) (c w : Nat) : Matx :=
  X.map (fun row => (row.drop c).take w)

/-- The per-feature loop of `DataHandler.decode`: maintain a running
column cursor; for each feature take its `encoding_width(encoded_one_hot)`
columns, call the feature's `decode`, and advance the cursor. -/
def decCols (X : Matx) (denormalize one_hot as_df : Bool) :
    Nat → List Feature → Option (List (String × List Rat))
  | _, [] => some []
  | c, f :: fs => do
    let w := f.encoding_width one_hot
    let d ← f.decode (sliceCols X c w) denormalize as_df
    let rest ← decCols X denormalize one_hot as_df (c + w) fs
    pure ((f.name, d) :: rest)

/-- The method `DataHandler.decode`: a zero-row input short-circuits to an empty
DataFrame with the feature names (or an empty `(0, n_features)` array)
without calling any feature's `decode`; otherwise the sliced per-feature
results are assembled either as a labeled table (`pd.concat`, which
fails on an empty list) or as a numeric matrix (each result reshaped to
`(rows, -1)` and concatenated, again failing on an empty list). -/
def DataHandler.decode (H : DataHandler) (X : Matx)
    (denormalize encoded_one_hot as_dataframe : Bool) : Option DecResult :=
  if X.length = 0 then
    if as_dataframe then
      some (.df (H.features.map (fun f => (f.name, []))))
    else
      some (.arr H.features.length [])
  else do
    let dec ← decCols X denormalize encoded_one_hot as_dataframe 0 H.features
    if as_dataframe then
      if dec.isEmpty then none else pure (.df dec)
    else do
      let bs ← reshapeAll X.length (dec.map Prod.snd)
      if bs.isEmpty then none
      else
        pure (.arr ((rowConcat X.length bs).headD []).length (rowConcat X.length bs))

/-- The method `DataHandler.encoding_width(one_hot)`: the sum of the features'
structural widths. -/
def DataHandler.encoding_width (H : DataHandler) (one_hot : Bool) : Nat :=
  (H.features.map (fun f => f.encoding_width one_hot)).sum

instance : DecidableEq (Except String Bool) := fun x y =>
  match x, y with
  | .ok a, .ok b =>
    if h : a = b then isTrue (by rw [h]) else isFalse (fun hc => by cases hc; exact h rfl)
  | .error a, .error b =>
    if h : a = b then isTrue (by rw [h]) else isFalse (fun hc => by cases hc; exact h rfl)
  | .ok _, .error _ => isFalse (fun hc => by cases hc)
  | .error _, .ok _ => isFalse (fun hc => by cases hc)

/-- A contiguous feature whose encoding is the identity, used to
instantiate the theorems below on concrete inputs. -/
def idFeat : Feature where
  fid := 0
  name := "f0"
  kind := .contiguous
  encode := fun c _ _ => some c
  encodeOne := fun v => v
  decode := fun s _ _ => some s.flatten
  encoding_width := fun _ => 1
  allowed_change := fun _ _ => true
  greater_than := fun _ => []

/-- An immutable contiguous feature: `allowed_change` rejects every
actual change. -/
def immutFeat : Feature where
  fid := 1
  name := "imm"
  kind := .contiguous
  encode := fun c _ _ => some c
  encodeOne := fun v => v
  decode := fun s _ _ => some s.flatten
  encoding_width := fun _ => 1
  allowed_change := fun a b => decide (a = b)
  greater_than := fun _ => []

/-- A binary feature (unsupported in causal-implication pairs). -/
def binFeat : Feature where
  fid := 2
  name := "bin"
  kind := .binary
  encode := fun c _ _ => some c
  encodeOne := fun v => v
  decode := fun s _ _ => some s.flatten
  encoding_width := fun _ => 1
  allowed_change := fun _ _ => true
  greater_than := fun _ => []

/-- A contiguous feature named `C`, a causal cause in the witnesses. -/
def featC : Feature where
  fid := 10
  name := "C"
  kind := .contiguous
  encode := fun c _ _ => some c
  encodeOne := fun v => v
  decode := fun s _ _ => some s.flatten
  encoding_width := fun _ => 1
  allowed_change := fun _ _ => true
  greater_than := fun _ => []

/-- A contiguous feature named `E`, a causal effect in the witnesses. -/
def featE : Feature where
  fid := 11
  name := "E"
  kind := .contiguous
  encode := fun c _ _ => some c
  encodeOne := fun v => v
  decode := fun s _ _ => some s.flatten
  encoding_width := fun _ => 1
  allowed_change := fun _ _ => true
  greater_than := fun _ => []

/-- The spec's type-dependent "increased" relation, stated from the
spec's words: a Categorical value increased when the raw-encoded
after-value is a member of the raw-encoded before-value's `greater_than`
set; a Contiguous value increased when the raw-encoded after-value is
strictly numerically greater; other kinds never qualify. -/
def incB (f : Feature) (a b : Rat) : Bool :=
  match f.kind with
  | .categorical => decide (f.encodeOne b ∈ f.greater_than (f.encodeOne a))
  | .contiguous => decide (f.encodeOne b > f.encodeOne a)
  | .binary => false

/-- The lookup `post_vals[features.index(f)]`, as one partial operation. -/
def postVal? (fs : List Feature) (post : List Rat) (f : Feature) : Option Rat :=
  (featIndex? fs f).bind (fun i => post.get? i)

/-- Whether an ordering pair is violated: the smaller feature's
after-value strictly exceeds the greater feature's after-value. -/
def orderViol (fs : List Feature) (post : List Rat) (p : Feature × Feature) : Bool :=
  match postVal? fs post p.2, postVal? fs post p.1 with
  | some ps, some pg => decide (ps > pg)
  | _, _ => false

/-- A contiguous feature named `A`, the "greater" side of an ordering
pair in the witnesses. -/
def featA : Feature where
  fid := 20
  name := "A"
  kind := .contiguous
  encode := fun c _ _ => some c
  encodeOne := fun v => v
  decode := fun s _ _ => some s.flatten
  encoding_width := fun _ => 1
  allowed_change := fun _ _ => true
  greater_than := fun _ => []

/-- A contiguous feature named `B`, the "smaller" side of an ordering
pair in the witnesses. -/
def featB : Feature where
  fid := 21
  name := "B"
  kind := .contiguous
  encode := fun c _ _ => some c
  encodeOne := fun v => v
  decode := fun s _ _ => some s.flatten
  encoding_width := fun _ => 1
  allowed_change := fun _ _ => true
  greater_than := fun _ => []

/-- A categorical-style feature of encoding width 2 (its encode emits
two entries per value), used to instantiate the width theorems. -/
def wFeat : Feature where
  fid := 3
  name := "w2"
  kind := .categorical
  encode := fun c _ _ => some (c ++ c)
  encodeOne := fun v => v
  decode := fun s _ _ => some (s.map (fun row => row.getD 0 0))
  encoding_width := fun _ => 2
  allowed_change := fun _ _ => true
  greater_than := fun _ => []

/-- The values of column `k` (no range check), as read by `X[:, k]`. -/
def colVals (X : Matx) (k : Nat) : List Rat :=
  X.map (fun row => row.getD k 0)

/-- With both constraint lists empty, `allowed_changes` reduces to the
per-feature stage and never raises. -/
theorem allowed_changes_no_pairs (H : DataHandler) (pre post : List Rat)
    (hc : H.causal_inc = []) (hg : H.greater_than = []) :
    H.allowed_changes pre post = .ok (featOk H.features pre post) := by
  unfold DataHandler.allowed_changes
  cases hfo : featOk H.features pre post with
  | false => simp [hfo, hc, hg, causalLoop, orderLoop]
  | true =>
    simp only [hfo, if_true]
    rw [hc, hg]
    rfl

/-- C6: the per-feature check runs first and any single rejection makes
`allowed_changes` return `False` immediately, without evaluating the
causal or ordering constraints (no error can be raised by them). -/
theorem C6_per_feature_veto (H : DataHandler) (pre post : List Rat)
    (h : ∃ t ∈ H.features.zip (pre.zip post), t.1.allowed_change t.2.1 t.2.2 = false) :
    H.allowed_changes pre post = .ok false := by
  unfold DataHandler.allowed_changes
  have hf : featOk H.features pre post = false := by
    rcases h with ⟨t, ht, hfa⟩
    rw [Bool.eq_false_iff]
    intro hall
    rw [featOk, List.all_eq_true] at hall
    have := hall t ht
    rw [hfa] at this
    cases this
  simp [hf]

/-- Witness for C6: an immutable feature whose value changes (while a
garbage causal pair that would raise sits in the constraint list) makes
`allowed_changes` return `ok false`. -/
theorem C6_per_feature_veto_witness :
    DataHandler.allowed_changes
      ⟨[idFeat, immutFeat], none, [(binFeat, binFeat)], []⟩ [0, 0] [0, 1] = .ok false :=
  C6_per_feature_veto ⟨[idFeat, immutFeat], none, [(binFeat, binFeat)], []⟩ [0, 0] [0, 1]
    (by decide)

/-- A `zip` only reads the prefix of its first argument up to the second
argument's length. -/
theorem zip_eq_zip_take (fs : List Feature) (lp : List (Rat × Rat)) :
    fs.zip lp = (fs.take lp.length).zip lp := by
  induction fs generalizing lp with
  | nil => simp
  | cons f fs ih =>
    cases lp with
    | nil => simp
    | cons p lp => simp [ih lp]

/-- Taking `min (length fs) m` elements is the same as taking `m`. -/
theorem take_min_left (fs : List Feature) (m : Nat) :
    fs.take (min fs.length m) = fs.take m := by
  rw [Nat.min_comm, ← List.take_take, List.take_length]

/-- The per-feature stage only reads the first
`min (num features) (min (len pre) (len post))` positions. -/
theorem featOk_take_min (fs : List Feature) (pre post : List Rat) :
    featOk (fs.take (min fs.length (min pre.length post.length))) pre post =
      featOk fs pre post := by
  unfold featOk
  congr 1
  rw [show min fs.length (min pre.length post.length) =
      min fs.length ((pre.zip post).length) by rw [List.length_zip]]
  rw [take_min_left fs ((pre.zip post).length)]
  rw [← zip_eq_zip_take]

/-- C10: `allowed_changes` does no length validation on its row
arguments; with no constraint pairs it returns `ok` of the truncated
per-feature check (never an error), and its result agrees with the
handler whose feature list is cut to the first
`min (num features) (min (len pre) (len post))` features — the
remaining features are never consulted. -/
theorem C10_zip_truncation (H : DataHandler) (pre post : List Rat)
    (hc : H.causal_inc = []) (hg : H.greater_than = []) :
    H.allowed_changes pre post = .ok (featOk H.features pre post) ∧
    H.allowed_changes pre post =
      DataHandler.allowed_changes
        ⟨H.features.take (min H.features.length (min pre.length post.length)),
          H.target, [], []⟩ pre post := by
  refine ⟨allowed_changes_no_pairs H pre post hc hg, ?_⟩
  rw [allowed_changes_no_pairs
    (DataHandler.mk (H.features.take (min H.features.length (min pre.length post.length)))
      H.target [] []) pre post rfl rfl]
  rw [allowed_changes_no_pairs H pre post hc hg]
  congr 1
  exact (featOk_take_min H.features pre post).symm

/-- Witness for C10: a handler with two features, given rows of length
one, silently checks only the first feature — the second (immutable,
and changing) is never consulted, and no error is raised. -/
theorem C10_zip_truncation_witness :
    DataHandler.allowed_changes ⟨[idFeat, immutFeat], none, [], []⟩ [0] [5] = .ok true ∧
    DataHandler.allowed_changes ⟨[idFeat, immutFeat], none, [], []⟩ [0] [5] =
      DataHandler.allowed_changes ⟨[idFeat], none, [], []⟩ [0] [5] := by
  have h := C10_zip_truncation ⟨[idFeat, immutFeat], none, [], []⟩ [0] [5] rfl rfl
  constructor
  · rw [h.1]; rfl
  · exact h.2

/-- An `Except` bind on a success reduces to the continuation. -/
@[simp] theorem exceptOkBind (a : α) (f : α → Except String β) :
    ((Except.ok a : Except String α) >>= f) = f a := rfl

/-- An `Except` bind on an error propagates the error. -/
@[simp] theorem exceptErrBind (m : String) (f : α → Except String β) :
    ((Except.error m : Except String α) >>= f) = .error m := rfl

/-- A `pure` into `Except` is `ok`. -/
@[simp] theorem exceptPure (a : α) : (pure a : Except String α) = .ok a := rfl

/-- An `Option` bind on `some` reduces to the continuation. -/
@[simp] theorem optSomeBind (a : α) (f : α → Option β) :
    ((some a : Option α) >>= f) = f a := rfl

/-- An `Option` bind on `none` is `none`. -/
@[simp] theorem optNoneBind (f : α → Option β) :
    ((none : Option α) >>= f) = none := rfl

/-- C2: a causal pair imposes a requirement exactly when the cause
increased (`incB`): if it did not, the pair is skipped and imposes no
constraint whatever the effect is; if it did, the result is `False`
unless the effect also increased under the same type-dependent rule. -/
theorem C2_causal_pair_semantics (H : DataHandler) (c e : Feature)
    (pre post : List Rat) (ci : Nat) (a b : Rat)
    (hfo : featOk H.features pre post = true)
    (hci : H.causal_inc = [(c, e)]) (hgt : H.greater_than = [])
    (hidx : featIndex? H.features c = some ci)
    (ha : pre.get? ci = some a) (hb : post.get? ci = some b)
    (hk : c.kind ≠ .binary) :
    (incB c a b = false → H.allowed_changes pre post = .ok true) ∧
    (incB c a b = true →
      ∀ ei a2 b2, featIndex? H.features e = some ei → pre.get? ei = some a2 →
        post.get? ei = some b2 → e.kind ≠ .binary →
        H.allowed_changes pre post = .ok (incB e a2 b2)) := by
  rw [List.get?_eq_getElem?] at ha hb
  constructor
  · intro hinc
    cases hck : c.kind with
    | binary => exact absurd hck hk
    | categorical =>
      simp only [incB, hck] at hinc
      rw [decide_eq_false_iff_not] at hinc
      simp [DataHandler.allowed_changes, hfo, hci, hgt, causalLoop, causalStep,
        liftOpt, hidx, ha, hb, hck, hinc, orderLoop]
    | contiguous =>
      simp only [incB, hck] at hinc
      rw [decide_eq_false_iff_not] at hinc
      simp [DataHandler.allowed_changes, hfo, hci, hgt, causalLoop, causalStep,
        liftOpt, hidx, ha, hb, hck, hinc, orderLoop]
  · intro hinc ei a2 b2 hei ha2 hb2 hek
    rw [List.get?_eq_getElem?] at ha2 hb2
    cases hck : c.kind with
    | binary => exact absurd hck hk
    | categorical =>
      simp only [incB, hck] at hinc
      cases hek2 : e.kind with
      | binary => exact absurd hek2 hek
      | categorical =>
        simp [DataHandler.allowed_changes, hfo, hci, hgt, causalLoop, causalStep,
          liftOpt, hidx, ha, hb, hck, hinc, hei, ha2, hb2, hek2, orderLoop, incB]
        cases hres : decide (e.encodeOne b2 ∈ e.greater_than (e.encodeOne a2)) <;>
          simp_all
      | contiguous =>
        simp [DataHandler.allowed_changes, hfo, hci, hgt, causalLoop, causalStep,
          liftOpt, hidx, ha, hb, hck, hinc, hei, ha2, hb2, hek2, orderLoop, incB]
        rw [decide_eq_true_eq] at hinc
        by_cases hres : e.encodeOne a2 < e.encodeOne b2 <;> simp [hres, hinc]
    | contiguous =>
      simp only [incB, hck] at hinc
      cases hek2 : e.kind with
      | binary => exact absurd hek2 hek
      | categorical =>
        simp [DataHandler.allowed_changes, hfo, hci, hgt, causalLoop, causalStep,
          liftOpt, hidx, ha, hb, hck, hinc, hei, ha2, hb2, hek2, orderLoop, incB]
        cases hres : decide (e.encodeOne b2 ∈ e.greater_than (e.encodeOne a2)) <;>
          simp_all
      | contiguous =>
        simp [DataHandler.allowed_changes, hfo, hci, hgt, causalLoop, causalStep,
          liftOpt, hidx, ha, hb, hck, hinc, hei, ha2, hb2, hek2, orderLoop, incB]
        rw [decide_eq_true_eq] at hinc
        by_cases hres : e.encodeOne a2 < e.encodeOne b2 <;> simp [hres, hinc]

/-- Witness for C2: the spec's own scenario — contiguous cause `C` goes
1→2 (increased) while contiguous effect `E` stays 1→1, so the causal
pair rejects the transition. -/
theorem C2_causal_pair_semantics_witness :
    DataHandler.allowed_changes ⟨[featC, featE], none, [(featC, featE)], []⟩
      [1, 1] [2, 1] = .ok false := by
  have h := (C2_causal_pair_semantics ⟨[featC, featE], none, [(featC, featE)], []⟩
    featC featE [1, 1] [2, 1] 0 1 2 (by decide) rfl rfl (by decide) rfl rfl
    (by decide)).2 (by decide) 1 1 1 (by decide) rfl rfl (by decide)
  rw [h]
  decide

/-- The ordering loop returns `ok` of "no pair is violated" whenever
every pair's two features resolve to an after-value. -/
theorem orderLoop_char (fs : List Feature) (post : List Rat) :
    ∀ l : List (Feature × Feature),
      (∀ p ∈ l, (postVal? fs post p.1).isSome ∧ (postVal? fs post p.2).isSome) →
      orderLoop fs post l = .ok (!l.any (orderViol fs post)) := by
  intro l
  induction l with
  | nil => intro _; rfl
  | cons p rest ih =>
    obtain ⟨g, s⟩ := p
    intro h
    obtain ⟨h1, h2⟩ := h (g, s) (List.mem_cons_self (g, s) rest)
    obtain ⟨pg, hpg⟩ := Option.isSome_iff_exists.mp h1
    obtain ⟨ps, hps⟩ := Option.isSome_iff_exists.mp h2
    obtain ⟨gi, hgi, hpg2⟩ := Option.bind_eq_some.mp (by rw [postVal?] at hpg; exact hpg)
    obtain ⟨si, hsi, hps2⟩ := Option.bind_eq_some.mp (by rw [postVal?] at hps; exact hps)
    have hps3 : post[si]? = some ps := by simpa using hps2
    have hpg3 : post[gi]? = some pg := by simpa using hpg2
    have hstep : orderStep fs post g s = .ok (decide (ps > pg)) := by
      simp [orderStep, liftOpt, hsi, hps3, hgi, hpg3]
    have hviol : orderViol fs post (g, s) = decide (ps > pg) := by
      simp only [orderViol, hps, hpg]
    by_cases hv : ps > pg
    · simp [orderLoop, hstep, hv, hviol]
    · simp [orderLoop, hstep, hv, hviol,
        ih (fun q hq => h q (List.mem_cons_of_mem _ hq))]

/-- C5: when the per-feature stage passes, the causal stage returns
`True`, and every ordering pair resolves, `allowed_changes` returns
`False` exactly when some (greater, smaller) pair has the smaller
feature's after-value strictly exceeding the greater's — only the
after-row is consulted, and equality is allowed. -/
theorem C5_ordering_semantics (H : DataHandler) (pre post : List Rat)
    (hfo : featOk H.features pre post = true)
    (hcl : causalLoop H.features pre post H.causal_inc = .ok true)
    (hres : ∀ p ∈ H.greater_than,
      (postVal? H.features post p.1).isSome ∧ (postVal? H.features post p.2).isSome) :
    H.allowed_changes pre post =
      .ok (!H.greater_than.any (orderViol H.features post)) := by
  unfold DataHandler.allowed_changes
  simp [hfo, hcl, orderLoop_char H.features post H.greater_than hres]

/-- Witness for C5: the spec's scenario — with constraint (A, B), the
after-row (A=5, B=6) is rejected. -/
theorem C5_ordering_semantics_witness :
    DataHandler.allowed_changes ⟨[featA, featB], none, [], [(featA, featB)]⟩
      [5, 5] [5, 6] = .ok false := by
  have h := C5_ordering_semantics ⟨[featA, featB], none, [], [(featA, featB)]⟩
    [5, 5] [5, 6] (by decide) rfl (by decide)
  rw [h]
  decide

/-- Counterexample for C4: a handler whose single causal pair has an
effect that is a Binary feature absent from the feature list; on rows
where the cause does not increase, `allowed_changes` returns `ok true` —
the misconfigured pair is silently ignored, no error is ever raised, and
nothing failed at construction time. -/
theorem C4_config_error_counterexample :
    DataHandler.allowed_changes ⟨[featC], none, [(featC, binFeat)], []⟩ [1] [1] =
      .ok true ∧
    featIndex? [featC] binFeat = none ∧
    binFeat.kind = .binary := by
  decide

/-- C4 (amended): constraint misconfiguration is only detected when the
pair is actually evaluated inside `allowed_changes`: when the per-feature
stage passes and a causal pair is reached, a cause missing from the
feature list raises the lookup error, and a cause of kind Binary (once
its index and values resolve) raises the feature-kind error. -/
theorem C4_config_error_lazy :
    (∀ (H : DataHandler) (c e : Feature) (rest : List (Feature × Feature))
      (pre post : List Rat),
      H.causal_inc = (c, e) :: rest →
      featOk H.features pre post = true →
      featIndex? H.features c = none →
      H.allowed_changes pre post = .error "is not in list") ∧
    (∀ (H : DataHandler) (c e : Feature) (rest : List (Feature × Feature))
      (pre post : List Rat) (ci : Nat) (a b : Rat),
      H.causal_inc = (c, e) :: rest →
      featOk H.features pre post = true →
      featIndex? H.features c = some ci →
      pre.get? ci = some a → post.get? ci = some b →
      c.kind = .binary →
      H.allowed_changes pre post = .error "invalid feature type") := by
  constructor
  · intro H c e rest pre post hci hfo hidx
    simp [DataHandler.allowed_changes, hfo, hci, causalLoop, causalStep, hidx, liftOpt]
  · intro H c e rest pre post ci a b hci hfo hidx ha hb hk
    rw [List.get?_eq_getElem?] at ha hb
    simp [DataHandler.allowed_changes, hfo, hci, causalLoop, causalStep, hidx,
      liftOpt, ha, hb, hk]

/-- Witness for C4 (amended): both error paths on concrete handlers —
a cause absent from the feature list, and a Binary cause present in the
list. -/
theorem C4_config_error_lazy_witness :
    DataHandler.allowed_changes ⟨[featC], none, [(binFeat, featC)], []⟩ [1] [1] =
      .error "is not in list" ∧
    DataHandler.allowed_changes ⟨[binFeat], none, [(binFeat, featC)], []⟩ [1] [1] =
      .error "invalid feature type" := by
  constructor
  · exact C4_config_error_lazy.1 ⟨[featC], none, [(binFeat, featC)], []⟩ binFeat featC
      [] [1] [1] rfl (by decide) (by decide)
  · exact C4_config_error_lazy.2 ⟨[binFeat], none, [(binFeat, featC)], []⟩ binFeat featC
      [] [1] [1] 0 1 1 rfl (by decide) (by decide) rfl rfl rfl

/-- C8: decoding a zero-row matrix short-circuits to an empty result with
the feature names (labeled mode) or the feature count (array mode); the
third conjunct replaces every feature's `decode` by one that always
fails, and the result is unchanged — no per-feature decode is invoked. -/
theorem C8_decode_empty (H : DataHandler) (denormalize one_hot : Bool) :
    H.decode [] denormalize one_hot true =
      some (.df (H.features.map (fun f => (f.name, [])))) ∧
    H.decode [] denormalize one_hot false = some (.arr H.features.length []) ∧
    DataHandler.decode
      ⟨H.features.map (fun f => { f with decode := fun _ _ _ => none }),
        H.target, H.causal_inc, H.greater_than⟩ [] denormalize one_hot true =
      some (.df (H.features.map (fun f => (f.name, [])))) := by
  refine ⟨?_, ?_, ?_⟩ <;> simp [DataHandler.decode]

/-- A successful `reshape(r, -1)` has exactly `r` rows. -/
theorem reshapeRows_length (r : Nat) (l : List Rat) (B : Matx)
    (h : reshapeRows r l = some B) : B.length = r := by
  by_cases hr : r = 0
  · simp [reshapeRows, hr] at h
  · by_cases hd : r ∣ l.length
    · simp [reshapeRows, hr, hd] at h
      rw [← h]
      simp
    · simp [reshapeRows, hr, hd] at h

/-- Every block produced by the encode loop has exactly `r` rows. -/
theorem encBlocks_row_lengths (r : Nat) (X : Matx) (n o : Bool) :
    ∀ (fs : List Feature) (i : Nat) (Bs : List Matx),
      encBlocks r X n o i fs = some Bs → ∀ B ∈ Bs, B.length = r := by
  intro fs
  induction fs with
  | nil =>
    intro i Bs h B hB
    rw [encBlocks] at h
    cases h
    simp at hB
  | cons f fs ih =>
    intro i Bs h B hB
    rw [encBlocks] at h
    cases hcol : colOf? X i with
    | none => rw [hcol] at h; simp at h
    | some c =>
      rw [hcol] at h
      simp only [optSomeBind] at h
      cases henc : f.encode c n o with
      | none => rw [henc] at h; simp at h
      | some e =>
        rw [henc] at h
        simp only [optSomeBind] at h
        cases hrs : reshapeRows r e with
        | none => rw [hrs] at h; simp at h
        | some B1 =>
          rw [hrs] at h
          simp only [optSomeBind] at h
          cases hrest : encBlocks r X n o (i + 1) fs with
          | none => rw [hrest] at h; simp at h
          | some Bs1 =>
            rw [hrest] at h
            simp at h
            rw [← h] at hB
            rcases List.mem_cons.mp hB with hB1 | hB2
            · rw [hB1]; exact reshapeRows_length r e B1 hrs
            · exact ih (i + 1) Bs1 hrest B hB2

/-- Row-wise concatenation of blocks that all have `r` rows has `r`
rows. -/
theorem rowConcat_length (r : Nat) :
    ∀ Bs : List Matx, (∀ B ∈ Bs, B.length = r) → (rowConcat r Bs).length = r := by
  intro Bs
  induction Bs with
  | nil => intro _; simp [rowConcat]
  | cons B Bs ih =>
    intro h
    have hB := h B (List.mem_cons_self B Bs)
    have ih2 := ih (fun B2 hB2 => h B2 (List.mem_cons_of_mem _ hB2))
    show (List.zipWith (fun a b => a ++ b) B (rowConcat r Bs)).length = r
    rw [List.length_zipWith, ih2, hB, Nat.min_self]

/-- C9: encoding a 1-D row returns exactly the first (and only) row of
the encoding of the corresponding 1-row matrix, as a row and not a
matrix. -/
theorem C9_single_row (H : DataHandler) (x : List Rat) (normalize one_hot : Bool)
    (M : Matx) (h : H.encode (.mat [x]) normalize one_hot = some (.mat M)) :
    ∃ rrow, M = [rrow] ∧ H.encode (.row x) normalize one_hot = some (.row rrow) := by
  have hm : H.encodeMat [x] normalize one_hot = some M := by
    rw [DataHandler.encode] at h
    cases he : H.encodeMat [x] normalize one_hot with
    | none => rw [he] at h; simp at h
    | some M2 =>
      rw [he] at h
      simp at h
      rw [h]
  have hlen : M.length = 1 := by
    rw [DataHandler.encodeMat] at hm
    cases hbs : encBlocks [x].length [x] normalize one_hot 0 H.features with
    | none => rw [hbs] at hm; simp at hm
    | some Bs =>
      rw [hbs] at hm
      simp only [optSomeBind] at hm
      by_cases hbe : Bs.isEmpty
      · rw [if_pos hbe] at hm; cases hm
      · rw [if_neg hbe] at hm
        have hm2 : rowConcat [x].length Bs = M := by
          cases hm
          rfl
        rw [← hm2]
        exact rowConcat_length [x].length Bs
          (fun B hB => encBlocks_row_lengths [x].length [x] normalize one_hot
            H.features 0 Bs hbs B hB)
  obtain ⟨rrow, hM⟩ : ∃ rrow, M = [rrow] := by
    cases M with
    | nil => simp at hlen
    | cons a M2 =>
      cases M2 with
      | nil => exact ⟨a, rfl⟩
      | cons b M3 => simp at hlen
  refine ⟨rrow, hM, ?_⟩
  rw [hM] at hm
  simp [DataHandler.encode, hm]

/-- Witness for C9: a concrete single-feature handler on the row `[5]`. -/
theorem C9_single_row_witness :
    DataHandler.encode ⟨[idFeat], none, [], []⟩ (.row [5]) true true =
      some (.row [5]) := by
  obtain ⟨rrow, hM, he⟩ :=
    C9_single_row ⟨[idFeat], none, [], []⟩ [5] true true [[5]] (by decide)
  have hr : rrow = [5] := by
    injection hM with h1 h2
    exact h1.symm
  rw [hr] at he
  exact he

/-- If some column the encode loop will visit is out of range, the loop
fails (with earlier failures only making it fail sooner). -/
theorem encBlocks_none_of_col_fail (r : Nat) (X : Matx) (n o : Bool) :
    ∀ (fs : List Feature) (i : Nat),
      (∃ k, k < fs.length ∧ colOf? X (i + k) = none) →
      encBlocks r X n o i fs = none := by
  intro fs
  induction fs with
  | nil =>
    intro i hex
    obtain ⟨k, hk, _⟩ := hex
    simp at hk
  | cons f fs ih =>
    intro i hex
    obtain ⟨k, hk, hcol⟩ := hex
    rw [encBlocks]
    cases hc : colOf? X i with
    | none => rfl
    | some c =>
      simp only [optSomeBind]
      have hk0 : k ≠ 0 := by
        intro h0
        rw [h0, Nat.add_zero] at hcol
        rw [hcol] at hc
        cases hc
      obtain ⟨k2, rfl⟩ := Nat.exists_eq_succ_of_ne_zero hk0
      have hrec : encBlocks r X n o (i + 1) fs = none := by
        apply ih (i + 1)
        refine ⟨k2, by simp at hk; omega, ?_⟩
        rw [show i + 1 + k2 = i + (k2 + 1) from by omega]
        exact hcol
      cases henc : f.encode c n o with
      | none => rfl
      | some e =>
        simp only [optSomeBind]
        cases hrs : reshapeRows r e with
        | none => rfl
        | some B =>
          simp only [optSomeBind]
          rw [hrec]
          rfl

/-- Counterexample for C3: a one-feature handler encodes a two-column
row without any error — the second column is silently dropped. -/
theorem C3_mismatch_counterexample :
    DataHandler.encodeMat ⟨[idFeat], none, [], []⟩ [[1, 2]] true true = some [[1]] ∧
    (DataHandler.mk [idFeat] none [] []).features.length = 1 ∧
    ([[(1 : Rat), 2]].all (fun row => row.length = 2)) = true := by
  decide

/-- Column extraction is unchanged by cutting every row to the first
`nf` entries, for column indices below `nf`. -/
theorem colOf?_take (X : Matx) (nf i : Nat) (hi : i < nf)
    (hlen : ∀ row ∈ X, nf ≤ row.length) :
    colOf? (X.map (fun row => row.take nf)) i = colOf? X i := by
  have h1 : X.all (fun r => i < r.length) = true := by
    rw [List.all_eq_true]
    intro row hr
    simp only [decide_eq_true_eq]
    exact lt_of_lt_of_le hi (hlen row hr)
  have h2 : (X.map (fun row => row.take nf)).all (fun r => i < r.length) = true := by
    rw [List.all_eq_true]
    intro row hr
    obtain ⟨row0, hr0, rfl⟩ := List.mem_map.mp hr
    simp only [decide_eq_true_eq, List.length_take]
    exact lt_min hi (lt_of_lt_of_le hi (hlen row0 hr0))
  rw [colOf?, colOf?, if_pos h2, if_pos h1, List.map_map]
  refine congrArg some (List.map_congr_left ?_)
  intro row hr
  simp only [Function.comp_apply]
  rw [List.getD_eq_getElem?_getD, List.getD_eq_getElem?_getD,
    List.getElem?_take_of_lt hi]

/-- The encode loop only reads the first `nf` columns when all the
features it will visit sit below column `nf`. -/
theorem encBlocks_take (r : Nat) (X : Matx) (n o : Bool) (nf : Nat)
    (hlen : ∀ row ∈ X, nf ≤ row.length) :
    ∀ (fs : List Feature) (i : Nat), i + fs.length ≤ nf →
      encBlocks r (X.map (fun row => row.take nf)) n o i fs =
        encBlocks r X n o i fs := by
  intro fs
  induction fs with
  | nil => intro i _; rfl
  | cons f fs ih =>
    intro i hle
    rw [encBlocks, encBlocks]
    rw [colOf?_take X nf i (by simp at hle; omega) hlen]
    cases hc : colOf? X i with
    | none => rfl
    | some c =>
      simp only [optSomeBind]
      cases henc : f.encode c n o with
      | none => rfl
      | some e =>
        simp only [optSomeBind]
        cases hrs : reshapeRows r e with
        | none => rfl
        | some B =>
          simp only [optSomeBind]
          rw [ih (i + 1) (by simp at hle ⊢; omega)]

/-- C3 (amended): a table with fewer columns than the feature list makes
`encode` fail (the first missing column's IndexError), but a table with
extra columns is silently truncated — encoding it equals encoding the
table cut to the first `n_features` columns. -/
theorem C3_mismatch_amended :
    (∀ (H : DataHandler) (X : Matx) (m : Nat) (normalize one_hot : Bool),
      X ≠ [] → (∀ row ∈ X, row.length = m) → m < H.features.length →
      H.encodeMat X normalize one_hot = none) ∧
    (∀ (H : DataHandler) (X : Matx) (normalize one_hot : Bool),
      (∀ row ∈ X, H.features.length ≤ row.length) →
      H.encodeMat X normalize one_hot =
        H.encodeMat (X.map (fun row => row.take H.features.length))
          normalize one_hot) := by
  constructor
  · intro H X m n o hne hrect hm
    have hcol : colOf? X m = none := by
      obtain ⟨row0, X2, rfl⟩ : ∃ row0 X2, X = row0 :: X2 := by
        cases X with
        | nil => exact absurd rfl hne
        | cons a b => exact ⟨a, b, rfl⟩
      have h0 : row0.length = m := hrect row0 (List.mem_cons_self _ _)
      rw [colOf?, if_neg]
      intro hall
      have := List.all_eq_true.mp hall row0 (List.mem_cons_self _ _)
      rw [h0] at this
      simp at this
    rw [DataHandler.encodeMat]
    rw [encBlocks_none_of_col_fail X.length X n o H.features 0
      ⟨m, hm, by rw [Nat.zero_add]; exact hcol⟩]
    rfl
  · intro H X n o hlen
    rw [DataHandler.encodeMat, DataHandler.encodeMat, List.length_map]
    rw [encBlocks_take X.length X n o H.features.length hlen H.features 0
      (by omega)]

/-- Witness for C3 (amended): a two-feature handler fails on a
one-column row; a one-feature handler encodes a two-column row exactly
as it encodes the row cut to its first entry. -/
theorem C3_mismatch_amended_witness :
    DataHandler.encodeMat ⟨[idFeat, immutFeat], none, [], []⟩ [[7]] true true = none ∧
    DataHandler.encodeMat ⟨[idFeat], none, [], []⟩ [[1, 2]] true true =
      DataHandler.encodeMat ⟨[idFeat], none, [], []⟩ [[1]] true true := by
  constructor
  · exact C3_mismatch_amended.1 ⟨[idFeat, immutFeat], none, [], []⟩ [[7]] 1 true true
      (by decide) (by decide) (by decide)
  · have h := C3_mismatch_amended.2 ⟨[idFeat], none, [], []⟩ [[1, 2]] true true
      (by decide)
    exact h

/-- Rows of a successful `reshape(r, -1)` of a size-`r * w` array all
have length `w`. -/
theorem reshapeRows_row_lengths (r : Nat) (l : List Rat) (B : Matx) (w : Nat)
    (h : reshapeRows r l = some B) (hw : l.length = r * w) :
    ∀ row ∈ B, row.length = w := by
  have hr0 : r ≠ 0 := by
    intro h0
    rw [reshapeRows, if_pos h0] at h
    cases h
  have hdvd : r ∣ l.length := ⟨w, hw⟩
  rw [reshapeRows, if_neg hr0, if_pos hdvd] at h
  have hq : l.length / r = w := by
    rw [hw, Nat.mul_div_cancel_left w (Nat.pos_of_ne_zero hr0)]
  injection h with h2
  subst h2
  intro row hrow
  obtain ⟨j, hj, rfl⟩ := List.mem_map.mp hrow
  rw [List.mem_range] at hj
  rw [List.length_take, List.length_drop, hq, hw]
  have hle : j * w + w ≤ r * w := by
    have h1 : j + 1 ≤ r := hj
    calc j * w + w = (j + 1) * w := by ring
    _ ≤ r * w := Nat.mul_le_mul_right w h1
  omega

/-- A row of a row-wise concatenation splits into a row of the head
block and a row of the concatenation of the rest. -/
theorem mem_zipWith_append :
    ∀ (B R : Matx) (row : List Rat), row ∈ List.zipWith (fun a b => a ++ b) B R →
      ∃ x y, x ∈ B ∧ y ∈ R ∧ row = x ++ y := by
  intro B
  induction B with
  | nil => intro R row h; simp at h
  | cons x B ih =>
    intro R row h
    cases R with
    | nil => simp at h
    | cons y R =>
      rw [List.zipWith_cons_cons] at h
      rcases List.mem_cons.mp h with rfl | h2
      · exact ⟨x, y, List.mem_cons_self _ _, List.mem_cons_self _ _, rfl⟩
      · obtain ⟨x2, y2, hx2, hy2, rfl⟩ := ih R row h2
        exact ⟨x2, y2, List.mem_cons_of_mem _ hx2, List.mem_cons_of_mem _ hy2, rfl⟩

/-- Every row of a row-wise concatenation of blocks (each of `r` rows,
with the block of feature `f` having rows of `f`'s width) has the summed
width. -/
theorem rowConcat_row_widths (r : Nat) (fs : List Feature) (Bs : List Matx) (o : Bool)
    (hf : List.Forall₂ (fun f B => ∀ row ∈ B, row.length = f.encoding_width o) fs Bs) :
    (∀ B ∈ Bs, B.length = r) →
    ∀ row ∈ rowConcat r Bs, row.length =
      (fs.map (fun f => f.encoding_width o)).sum := by
  induction hf with
  | nil =>
    intro _ row hrow
    rw [rowConcat] at hrow
    simp only [List.foldr_nil] at hrow
    rw [List.eq_of_mem_replicate hrow]
    simp
  | @cons f B fs2 Bs2 h1 h2 ih =>
    intro hlen row hrow
    have hrow2 : row ∈ List.zipWith (fun a b => a ++ b) B (rowConcat r Bs2) := hrow
    obtain ⟨x, y, hx, hy, rfl⟩ := mem_zipWith_append B (rowConcat r Bs2) row hrow2
    rw [List.length_append, h1 x hx,
      ih (fun B2 hB2 => hlen B2 (List.mem_cons_of_mem _ hB2)) y hy]
    simp

/-- Under the per-feature width contract (encode output size
`= r * encoding_width`), each block's rows have that feature's width. -/
theorem encBlocks_widths (r : Nat) (X : Matx) (n o : Bool) :
    ∀ (fs : List Feature) (i : Nat) (Bs : List Matx),
      encBlocks r X n o i fs = some Bs →
      (∀ k f, fs.get? k = some f →
        ∃ c e, colOf? X (i + k) = some c ∧ f.encode c n o = some e ∧
          e.length = r * f.encoding_width o) →
      List.Forall₂ (fun f B => ∀ row ∈ B, row.length = f.encoding_width o) fs Bs := by
  intro fs
  induction fs with
  | nil =>
    intro i Bs h _
    cases h
    exact List.Forall₂.nil
  | cons f fs ih =>
    intro i Bs h hcon
    rw [encBlocks] at h
    cases hc : colOf? X i with
    | none => rw [hc] at h; simp at h
    | some c =>
      rw [hc] at h
      simp only [optSomeBind] at h
      obtain ⟨c0, e0, hc0, he0, hlen0⟩ := hcon 0 f rfl
      rw [Nat.add_zero, hc] at hc0
      injection hc0 with hcc
      subst hcc
      cases henc : f.encode c n o with
      | none => rw [henc] at h; simp at h
      | some e =>
        rw [henc] at h
        simp only [optSomeBind] at h
        rw [henc] at he0
        injection he0 with hee
        subst hee
        cases hrs : reshapeRows r e with
        | none => rw [hrs] at h; simp at h
        | some B1 =>
          rw [hrs] at h
          simp only [optSomeBind] at h
          cases hrest : encBlocks r X n o (i + 1) fs with
          | none => rw [hrest] at h; simp at h
          | some Bs1 =>
            rw [hrest] at h
            simp at h
            rw [← h]
            refine List.Forall₂.cons
              (reshapeRows_row_lengths r e B1 (f.encoding_width o) hrs hlen0) ?_
            refine ih (i + 1) Bs1 hrest ?_
            intro k f2 hk
            obtain ⟨c2, e2, hc2, he2, hlen2⟩ := hcon (k + 1) f2 (by simpa using hk)
            refine ⟨c2, e2, ?_, he2, hlen2⟩
            rw [show i + 1 + k = i + (k + 1) from by omega]
            exact hc2

/-- A successful `encodeMat` comes from a nonempty block list. -/
theorem encodeMat_parts (H : DataHandler) (X : Matx) (n o : Bool) (M : Matx)
    (h : H.encodeMat X n o = some M) :
    ∃ Bs, encBlocks X.length X n o 0 H.features = some Bs ∧ Bs ≠ [] ∧
      M = rowConcat X.length Bs := by
  rw [DataHandler.encodeMat] at h
  cases hbs : encBlocks X.length X n o 0 H.features with
  | none => rw [hbs] at h; cases h
  | some Bs =>
    rw [hbs] at h
    simp only [optSomeBind] at h
    by_cases hbe : Bs.isEmpty
    · rw [if_pos hbe] at h; cases h
    · rw [if_neg hbe] at h
      refine ⟨Bs, rfl, by simpa [List.isEmpty_iff] using hbe, ?_⟩
      cases h
      rfl

/-- C7: `encoding_width` is the sum of the per-feature structural widths
(independent of any data), and — under the per-feature width contract —
every successful encoding of a nonempty table has exactly that many
columns (and as many rows as the input). -/
theorem C7_width_additivity (H : DataHandler) (one_hot : Bool) :
    H.encoding_width one_hot =
      (H.features.map (fun f => f.encoding_width one_hot)).sum ∧
    ∀ (X : Matx) (normalize : Bool) (M : Matx),
      X ≠ [] →
      (∀ k f, H.features.get? k = some f →
        ∃ c e, colOf? X k = some c ∧ f.encode c normalize one_hot = some e ∧
          e.length = X.length * f.encoding_width one_hot) →
      H.encodeMat X normalize one_hot = some M →
      M.length = X.length ∧
        ∀ row ∈ M, row.length = H.encoding_width one_hot := by
  refine ⟨rfl, ?_⟩
  intro X normalize M hne hcon hm
  obtain ⟨Bs, hbs, hBne, rfl⟩ := encodeMat_parts H X normalize one_hot M hm
  have hlens : ∀ B ∈ Bs, B.length = X.length := fun B hB =>
    encBlocks_row_lengths X.length X normalize one_hot H.features 0 Bs hbs B hB
  refine ⟨rowConcat_length X.length Bs hlens, ?_⟩
  intro row hrow
  have hf2 := encBlocks_widths X.length X normalize one_hot H.features 0 Bs hbs
    (fun k f hk => by simpa using hcon k f hk)
  exact rowConcat_row_widths X.length H.features Bs one_hot hf2 hlens row hrow

/-- Witness for C7: a width-1 and a width-2 feature on a 1-row table
give a 3-column encoding. -/
theorem C7_width_additivity_witness :
    [[(1 : Rat), 2, 2]].length = [[(1 : Rat), 2]].length ∧
    ∀ row ∈ [[(1 : Rat), 2, 2]],
      row.length = (DataHandler.mk [idFeat, wFeat] none [] []).encoding_width true := by
  have hcon : ∀ k f, (DataHandler.mk [idFeat, wFeat] none [] []).features.get? k = some f →
      ∃ c e, colOf? [[(1 : Rat), 2]] k = some c ∧ f.encode c true true = some e ∧
        e.length = [[(1 : Rat), 2]].length * f.encoding_width true := by
    intro k f hk
    cases k with
    | zero =>
      simp at hk
      subst hk
      exact ⟨[1], [1], by decide, by decide, by decide⟩
    | succ k1 =>
      cases k1 with
      | zero =>
        simp at hk
        subst hk
        exact ⟨[2], [2, 2], by decide, by decide, by decide⟩
      | succ k2 => simp at hk
  exact (C7_width_additivity ⟨[idFeat, wFeat], none, [], []⟩ true).2 [[1, 2]] true
    [[1, 2, 2]] (by decide) hcon (by decide)

/-- Within range, `X[:, k]` returns the column values. -/
theorem colOf?_colVals (X : Matx) (nf k : Nat) (hk : k < nf)
    (hlen : ∀ row ∈ X, nf ≤ row.length) :
    colOf? X k = some (colVals X k) := by
  rw [colOf?, if_pos]
  · rfl
  · rw [List.all_eq_true]
    intro row hr
    simp only [decide_eq_true_eq]
    exact lt_of_lt_of_le hk (hlen row hr)

/-- The decode loop at cursor `c` equals the loop at cursor 0 on the
matrix with the first `c` columns dropped. -/
theorem decCols_shift (d o adf : Bool) :
    ∀ (fs : List Feature) (X : Matx) (c : Nat),
      decCols X d o adf c fs =
        decCols (X.map (fun row => row.drop c)) d o adf 0 fs := by
  intro fs
  induction fs with
  | nil => intro X c; rfl
  | cons f fs ih =>
    intro X c
    rw [decCols, decCols]
    have hs : sliceCols X c (f.encoding_width o) =
        sliceCols (X.map (fun row => row.drop c)) 0 (f.encoding_width o) := by
      simp [sliceCols, List.map_map]
    have hrec : decCols X d o adf (c + f.encoding_width o) fs =
        decCols (X.map (fun row => row.drop c)) d o adf (0 + f.encoding_width o) fs := by
      rw [ih X (c + f.encoding_width o),
        ih (X.map (fun row => row.drop c)) (0 + f.encoding_width o)]
      congr 1
      rw [List.map_map]
      apply List.map_congr_left
      intro row _
      simp only [Function.comp_apply, List.drop_drop]
      congr 1
      omega
    rw [hs, hrec]

/-- Slicing the first `w` columns off a row-wise concatenation whose head
block has width-`w` rows recovers the head block. -/
theorem sliceCols_zipWith_head (w : Nat) :
    ∀ (B R : Matx), (∀ row ∈ B, row.length = w) → R.length = B.length →
      sliceCols (List.zipWith (fun a b => a ++ b) B R) 0 w = B := by
  intro B
  induction B with
  | nil => intro R _ _; simp [sliceCols]
  | cons x B ih =>
    intro R hw hlen
    cases R with
    | nil => simp at hlen
    | cons y R =>
      rw [List.zipWith_cons_cons]
      simp only [sliceCols, List.map_cons, List.drop_zero]
      congr 1
      · exact List.take_left' (hw x (List.mem_cons_self _ _))
      · exact ih R (fun row hr => hw row (List.mem_cons_of_mem _ hr))
          (by simpa using hlen)

/-- Dropping the first `w` columns off a row-wise concatenation whose
head block has width-`w` rows recovers the concatenation of the rest. -/
theorem dropCols_zipWith_tail (w : Nat) :
    ∀ (B R : Matx), (∀ row ∈ B, row.length = w) → R.length = B.length →
      (List.zipWith (fun a b => a ++ b) B R).map (fun row => row.drop w) = R := by
  intro B
  induction B with
  | nil =>
    intro R _ hlen
    cases R with
    | nil => rfl
    | cons y R => simp at hlen
  | cons x B ih =>
    intro R hw hlen
    cases R with
    | nil => simp at hlen
    | cons y R =>
      rw [List.zipWith_cons_cons, List.map_cons]
      congr 1
      · exact List.drop_left' (hw x (List.mem_cons_self _ _))
      · exact ih R (fun row hr => hw row (List.mem_cons_of_mem _ hr))
          (by simpa using hlen)

/-- Reading every position of a list in order reproduces the list. -/
theorem map_getD_range (l : List Rat) :
    (List.range l.length).map (fun k => l.getD k 0) = l := by
  induction l with
  | nil => rfl
  | cons v l ih =>
    rw [List.length_cons, List.range_succ_eq_map, List.map_cons, List.map_map]
    congr 1

/-- Row `j` of a row-wise concatenation is the concatenation of row `j`
of each block. -/
theorem rowConcat_get? (r : Nat) :
    ∀ (Bs : List Matx), (∀ B ∈ Bs, B.length = r) → ∀ j, j < r →
      (rowConcat r Bs).get? j = some ((Bs.map (fun B => B.getD j [])).flatten) := by
  intro Bs
  induction Bs with
  | nil =>
    intro _ j hj
    rw [rowConcat]
    simp [List.getElem?_replicate, hj]
  | cons B Bs ih =>
    intro h j hj
    have hB : B.length = r := h B (List.mem_cons_self _ _)
    have hrest := ih (fun B2 hB2 => h B2 (List.mem_cons_of_mem _ hB2)) j hj
    show (List.zipWith (fun a b => a ++ b) B (rowConcat r Bs)).get? j = _
    rw [List.get?_eq_getElem?] at hrest ⊢
    rw [List.getElem?_zipWith]
    have hBj : B[j]? = some (B.getD j []) := by
      rw [List.getD_eq_getElem?_getD]
      cases hx : B[j]? with
      | none =>
        rw [List.getElem?_eq_none_iff] at hx
        omega
      | some row => rfl
    rw [hBj, hrest]
    simp

/-- Decoding a row-wise concatenation of blocks, walking the features in
order with the running cursor, recovers each feature's named column when
every block decodes to its column. -/
theorem decCols_rowConcat (r : Nat) (d o adf : Bool) :
    ∀ (fs : List Feature) (cols : List (List Rat)) (Bs : List Matx),
      List.Forall₂ (fun (p : Feature × List Rat) (B : Matx) =>
        (∀ row ∈ B, row.length = p.1.encoding_width o) ∧
        p.1.decode B d adf = some p.2) (fs.zip cols) Bs →
      (∀ B ∈ Bs, B.length = r) →
      fs.length = cols.length →
      decCols (rowConcat r Bs) d o adf 0 fs =
        some ((fs.zip cols).map (fun p => (p.1.name, p.2))) := by
  intro fs
  induction fs with
  | nil =>
    intro cols Bs hF _ _
    cases hF
    rfl
  | cons f fs ih =>
    intro cols Bs hF hlens hlen
    cases cols with
    | nil => simp at hlen
    | cons col cols =>
      rw [List.zip_cons_cons] at hF
      cases hF with
      | @cons _ B _ Bs2 hR hF2 =>
        have hBlen : B.length = r := hlens B (List.mem_cons_self _ _)
        have hlens2 : ∀ B2 ∈ Bs2, B2.length = r :=
          fun B2 hB2 => hlens B2 (List.mem_cons_of_mem _ hB2)
        have hRlen : (rowConcat r Bs2).length = B.length := by
          rw [rowConcat_length r Bs2 hlens2, hBlen]
        have hM : rowConcat r (B :: Bs2) =
            List.zipWith (fun a b => a ++ b) B (rowConcat r Bs2) := rfl
        rw [decCols, hM]
        rw [sliceCols_zipWith_head (f.encoding_width o) B (rowConcat r Bs2) hR.1 hRlen]
        rw [hR.2]
        simp only [optSomeBind]
        rw [decCols_shift d o adf fs _ (0 + f.encoding_width o)]
        rw [Nat.zero_add]
        rw [dropCols_zipWith_tail (f.encoding_width o) B (rowConcat r Bs2) hR.1 hRlen]
        rw [ih cols Bs2 hF2 hlens2 (by simpa using hlen)]
        simp only [optSomeBind]
        rw [List.zip_cons_cons, List.map_cons]
        rfl

/-- Splitting a length-`r` column into `r` one-entry chunks. -/
theorem take_one_chunks (col : List Rat) :
    (List.range col.length).map (fun j => (col.drop j).take 1) =
      col.map (fun v => [v]) := by
  induction col with
  | nil => rfl
  | cons v col ih =>
    rw [List.length_cons, List.range_succ_eq_map, List.map_cons, List.map_map,
      List.map_cons]
    congr 1

/-- A `reshape(r, -1)` on a length-`r` column yields `r` one-entry rows. -/
theorem reshapeRows_width_one (col : List Rat) (r : Nat) (hr : r ≠ 0)
    (hc : col.length = r) :
    reshapeRows r col = some (col.map (fun v => [v])) := by
  have hdvd : r ∣ col.length := by rw [hc]
  rw [reshapeRows, if_neg hr, if_pos hdvd]
  have hq : col.length / r = 1 := by
    rw [hc]
    exact Nat.div_self (Nat.pos_of_ne_zero hr)
  rw [hq]
  simp only [Nat.mul_one]
  rw [← hc]
  rw [take_one_chunks]

/-- Reshaping a list of length-`r` columns to `r` rows each succeeds and
yields the one-entry chunkings. -/
theorem reshapeAll_width_one (r : Nat) (hr : r ≠ 0) :
    ∀ cols : List (List Rat), (∀ col ∈ cols, col.length = r) →
      reshapeAll r cols =
        some (cols.map (fun col => col.map (fun v => [v]))) := by
  intro cols
  induction cols with
  | nil => intro _; rfl
  | cons col cols ih =>
    intro h
    rw [reshapeAll]
    rw [reshapeRows_width_one col r hr (h col (List.mem_cons_self _ _))]
    simp only [optSomeBind]
    rw [ih (fun c hc => h c (List.mem_cons_of_mem _ hc))]
    simp only [optSomeBind]
    rfl

/-- Concatenating singleton chunks in order reproduces the list. -/
theorem flatten_singletons (row : List Rat) :
    ∀ l : List Nat, (l.map (fun k => [row.getD k 0])).flatten =
      l.map (fun k => row.getD k 0) := by
  intro l
  induction l with
  | nil => rfl
  | cons k l ih =>
    rw [List.map_cons, List.map_cons, List.flatten_cons, ih]
    rfl

/-- Row-wise concatenation of a rectangular table's columns (as one-entry
chunks, in order) reproduces the table. -/
theorem rowConcat_colVals (X : Matx) (nf : Nat)
    (hrect : ∀ row ∈ X, row.length = nf) :
    rowConcat X.length
      ((List.range nf).map (fun k => (colVals X k).map (fun v => [v]))) = X := by
  have hlens : ∀ B ∈ (List.range nf).map (fun k => (colVals X k).map (fun v => [v])),
      B.length = X.length := by
    intro B hB
    obtain ⟨k, hk, rfl⟩ := List.mem_map.mp hB
    simp [colVals]
  apply List.ext_getElem?
  intro j
  by_cases hj : j < X.length
  · have h := rowConcat_get? X.length _ hlens j hj
    rw [List.get?_eq_getElem?] at h
    rw [h]
    obtain ⟨row, hrow⟩ : ∃ row, X[j]? = some row := by
      cases hx : X[j]? with
      | none =>
        rw [List.getElem?_eq_none_iff] at hx
        omega
      | some row => exact ⟨row, rfl⟩
    rw [hrow]
    congr 1
    have hrl : row.length = nf := hrect row (List.getElem?_mem hrow)
    rw [List.map_map]
    have hstep : ∀ k ∈ List.range nf,
        ((fun B => B.getD j []) ∘ (fun k => (colVals X k).map (fun v => [v]))) k =
          [row.getD k 0] := by
      intro k hk
      simp only [Function.comp_apply]
      rw [List.getD_eq_getElem?_getD, List.getElem?_map, colVals,
        List.getElem?_map, hrow]
      rfl
    rw [List.map_congr_left hstep]
    rw [flatten_singletons row (List.range nf)]
    rw [← hrl]
    exact map_getD_range row
  · rw [List.getElem?_eq_none (by rw [rowConcat_length X.length _ hlens]; omega),
      List.getElem?_eq_none (by omega)]

/-- The second components of a zip against equally long lists. -/
theorem zip_snd (fs : List Feature) :
    ∀ cols : List (List Rat), fs.length = cols.length →
      (fs.zip cols).map (fun p => p.2) = cols := by
  induction fs with
  | nil =>
    intro cols h
    cases cols with
    | nil => rfl
    | cons c cols => simp at h
  | cons f fs ih =>
    intro cols h
    cases cols with
    | nil => simp at h
    | cons c cols =>
      rw [List.zip_cons_cons, List.map_cons, ih cols (by simpa using h)]

/-- Under the full per-feature round-trip contract, the encode loop
succeeds and each produced block has the feature's row widths and
decodes back to the feature's column. -/
theorem encBlocks_of_contract (r : Nat) (X : Matx) (n o d adf : Bool) :
    ∀ (fs : List Feature) (i : Nat),
      (∀ k f, fs.get? k = some f →
        ∃ e B, colOf? X (i + k) = some (colVals X (i + k)) ∧
          f.encode (colVals X (i + k)) n o = some e ∧
          e.length = r * f.encoding_width o ∧
          reshapeRows r e = some B ∧
          f.decode B d adf = some (colVals X (i + k))) →
      ∃ Bs, encBlocks r X n o i fs = some Bs ∧
        List.Forall₂ (fun (p : Feature × List Rat) (B : Matx) =>
          (∀ row ∈ B, row.length = p.1.encoding_width o) ∧
          p.1.decode B d adf = some p.2)
          (fs.zip ((List.range fs.length).map (fun k => colVals X (i + k)))) Bs := by
  intro fs
  induction fs with
  | nil => intro i _; exact ⟨[], rfl, List.Forall₂.nil⟩
  | cons f fs ih =>
    intro i hcon
    obtain ⟨e, B, hcol, henc, hlen, hrs, hdec⟩ := hcon 0 f rfl
    simp only [Nat.add_zero] at hcol henc hrs hdec
    obtain ⟨Bs2, hbs2, hF2⟩ := ih (i + 1) (fun k f2 hk => by
      obtain ⟨e2, B2, h1, h2, h3, h4, h5⟩ := hcon (k + 1) f2 (by simpa using hk)
      rw [show i + (k + 1) = i + 1 + k from by omega] at h1 h2 h5
      exact ⟨e2, B2, h1, h2, h3, h4, h5⟩)
    refine ⟨B :: Bs2, ?_, ?_⟩
    · rw [encBlocks, hcol]
      simp only [optSomeBind]
      rw [henc]
      simp only [optSomeBind]
      rw [hrs]
      simp only [optSomeBind]
      rw [hbs2]
      simp only [optSomeBind]
      rfl
    · rw [List.length_cons, List.range_succ_eq_map, List.map_cons, List.map_map,
        List.zip_cons_cons]
      simp only [Nat.add_zero]
      have hmap : (List.range fs.length).map ((fun k => colVals X (i + k)) ∘ Nat.succ) =
          (List.range fs.length).map (fun k => colVals X (i + 1 + k)) := by
        apply List.map_congr_left
        intro k _
        simp only [Function.comp_apply]
        congr 1
        omega
      rw [hmap]
      exact List.Forall₂.cons
        ⟨fun row hrow =>
          reshapeRows_row_lengths r e B (f.encoding_width o) hrs hlen row hrow, hdec⟩
        hF2

/-- C1 (amended): for a nonempty feature list and a table with at least
one row whose columns satisfy the per-feature round-trip contract
(encode succeeds with the contractual width and decode inverts it),
`encode` succeeds and `decode` with matching flags (array mode)
reproduces the table exactly. -/
theorem C1_roundtrip_amended (H : DataHandler) (X : Matx) (normalize one_hot : Bool)
    (hne : X ≠ []) (hfs : H.features ≠ [])
    (hrect : ∀ row ∈ X, row.length = H.features.length)
    (hcontract : ∀ k f, H.features.get? k = some f →
      ∃ e B, f.encode (colVals X k) normalize one_hot = some e ∧
        e.length = X.length * f.encoding_width one_hot ∧
        reshapeRows X.length e = some B ∧
        f.decode B normalize false = some (colVals X k)) :
    ∃ M, H.encodeMat X normalize one_hot = some M ∧
      H.decode M normalize one_hot false = some (.arr H.features.length X) := by
  have hr0 : X.length ≠ 0 := fun h => hne (List.length_eq_zero.mp h)
  have hcon2 : ∀ k f, H.features.get? k = some f →
      ∃ e B, colOf? X (0 + k) = some (colVals X (0 + k)) ∧
        f.encode (colVals X (0 + k)) normalize one_hot = some e ∧
        e.length = X.length * f.encoding_width one_hot ∧
        reshapeRows X.length e = some B ∧
        f.decode B normalize false = some (colVals X (0 + k)) := by
    intro k f hk
    obtain ⟨e, B, h1, h2, h3, h4⟩ := hcontract k f hk
    have hkn : k < H.features.length := by
      by_contra hx
      rw [List.get?_eq_getElem?, List.getElem?_eq_none (by omega)] at hk
      cases hk
    rw [Nat.zero_add]
    exact ⟨e, B, colOf?_colVals X H.features.length k hkn
      (fun row hr => le_of_eq (hrect row hr).symm), h1, h2, h3, h4⟩
  obtain ⟨Bs, hbs, hF⟩ := encBlocks_of_contract X.length X normalize one_hot
    normalize false H.features 0 hcon2
  simp only [Nat.zero_add] at hF
  have hlens : ∀ B ∈ Bs, B.length = X.length := fun B hB =>
    encBlocks_row_lengths X.length X normalize one_hot H.features 0 Bs hbs B hB
  have hBlen : Bs.length = H.features.length := by
    have hq := List.Forall₂.length_eq hF
    rw [List.length_zip, List.length_map, List.length_range, Nat.min_self] at hq
    omega
  have hBsne : ¬Bs.isEmpty = true := by
    rw [List.isEmpty_iff]
    intro h0
    rw [h0] at hBlen
    simp at hBlen
    exact hfs (List.length_eq_zero.mp hBlen.symm)
  refine ⟨rowConcat X.length Bs, ?_, ?_⟩
  · rw [DataHandler.encodeMat, hbs]
    simp only [optSomeBind]
    rw [if_neg hBsne]
    rfl
  · have hMlen : (rowConcat X.length Bs).length = X.length :=
      rowConcat_length X.length Bs hlens
    rw [DataHandler.decode]
    rw [if_neg (by rw [hMlen]; exact hr0)]
    have hleneq : H.features.length =
        ((List.range H.features.length).map (fun k => colVals X k)).length := by
      simp
    have hdc := decCols_rowConcat X.length normalize one_hot false H.features
      ((List.range H.features.length).map (fun k => colVals X k)) Bs hF hlens hleneq
    rw [hdc]
    simp only [optSomeBind]
    simp only [Bool.false_eq_true, if_false]
    have hsnd : (((H.features.zip ((List.range H.features.length).map
        (fun k => colVals X k))).map (fun p => (p.1.name, p.2))).map Prod.snd) =
        (List.range H.features.length).map (fun k => colVals X k) := by
      rw [List.map_map]
      exact zip_snd H.features _ hleneq
    rw [hsnd, hMlen]
    rw [reshapeAll_width_one X.length hr0 _ (by
      intro col hcol
      obtain ⟨k, hk, rfl⟩ := List.mem_map.mp hcol
      simp [colVals])]
    simp only [optSomeBind]
    rw [if_neg (by
      simp only [List.isEmpty_iff, List.map_eq_nil_iff, List.range_eq_nil]
      intro h0
      exact hfs (List.length_eq_zero.mp h0))]
    have hmm : ((List.range H.features.length).map (fun k => colVals X k)).map
        (fun col => col.map (fun v => [v])) =
        (List.range H.features.length).map (fun k => (colVals X k).map (fun v => [v])) := by
      rw [List.map_map]
      rfl
    rw [hmm]
    rw [rowConcat_colVals X H.features.length hrect]
    obtain ⟨row0, X2, rfl⟩ : ∃ row0 X2, X = row0 :: X2 := by
      cases X with
      | nil => exact absurd rfl hne
      | cons a b => exact ⟨a, b, rfl⟩
    have h0 : row0.length = H.features.length := hrect row0 (List.mem_cons_self _ _)
    rw [show (row0 :: X2).headD [] = row0 from rfl, h0]
    rfl

/-- Counterexample for C1: the round trip fails on degenerate tables —
encoding a zero-row table errors (numpy cannot reshape to `(0, -1)`),
and encoding a nonempty table with an empty feature list errors (numpy
cannot concatenate an empty list), even though the single feature used
here has an exactly invertible encode. -/
theorem C1_roundtrip_counterexample :
    DataHandler.encodeMat ⟨[idFeat], none, [], []⟩ [] true true = none ∧
    DataHandler.encodeMat ⟨[], none, [], []⟩ [[]] true true = none := by
  decide

/-- Witness for C1 (amended): a width-1 and a width-2 feature on the
1-row table `[[1, 2]]` encode to `[[1, 2, 2]]` and decode back to the
original table. -/
theorem C1_roundtrip_amended_witness :
    ∃ M, DataHandler.encodeMat ⟨[idFeat, wFeat], none, [], []⟩ [[1, 2]] true true =
        some M ∧
      DataHandler.decode ⟨[idFeat, wFeat], none, [], []⟩ M true true false =
        some (.arr 2 [[1, 2]]) := by
  have hcon : ∀ k f, (DataHandler.mk [idFeat, wFeat] none [] []).features.get? k =
      some f →
      ∃ e B, f.encode (colVals [[(1 : Rat), 2]] k) true true = some e ∧
        e.length = [[(1 : Rat), 2]].length * f.encoding_width true ∧
        reshapeRows [[(1 : Rat), 2]].length e = some B ∧
        f.decode B true false = some (colVals [[(1 : Rat), 2]] k) := by
    intro k f hk
    cases k with
    | zero =>
      simp at hk
      subst hk
      exact ⟨[1], [[1]], by decide, by decide, by decide, by decide⟩
    | succ k1 =>
      cases k1 with
      | zero =>
        simp at hk
        subst hk
        exact ⟨[2, 2], [[2, 2]], by decide, by decide, by decide, by decide⟩
      | succ k2 => simp at hk
  exact C1_roundtrip_amended ⟨[idFeat, wFeat], none, [], []⟩ [[1, 2]] true true
    (List.cons_ne_nil _ _) (List.cons_ne_nil _ _) (by decide) hcon

